import Mathlib

/-!
Verification of the person read-model query module
(`crates/db_views_actor/src/person_view.rs`).

The module is embedded shallowly: a database state is a triple of row
lists (`person`, `person_aggregates`, `local_user`), diesel query
composition becomes list filtering / sorting / slicing, and the SQL
`ILIKE` operator is modelled by an executable pattern matcher over
characters.  External collaborators that are not part of the source
(`fuzzy_search`, `limit_and_offset`, the `SortType` enumeration) are
modelled from the specification and marked as such.
-/

/-- A person (user account) row: the fields of the `person` table that this
module reads.  Timestamps are integers. -/
structure Person where
  id : Nat
  name : String
  display_name : Option String
  banned : Bool
  published : Int
  ban_expires : Option Int
  deleted : Bool
  deriving DecidableEq, Repr

/-- A `person_aggregates` row: derived counters, one row per person. -/
structure PersonAggregates where
  person_id : Nat
  comment_count : Int
  comment_score : Int
  post_count : Int
  post_score : Int
  deriving DecidableEq, Repr

/-- A `local_user` row, restricted to the columns this module reads:
zero-or-one row per person, carrying the `admin` flag. -/
structure LocalUser where
  person_id : Nat
  admin : Bool
  deriving DecidableEq, Repr

/-- A database state: the three tables the queries touch. -/
structure Db where
  persons : List Person
  person_aggregates : List PersonAggregates
  local_users : List LocalUser
  deriving Repr

/-- The composite read-model result: person fields plus aggregate fields. -/
structure PersonView where
  person : Person
  counts : PersonAggregates
  deriving DecidableEq, Repr

/-- Error taxonomy: `notFound` (diesel `Error::NotFound` from `.first` with
no row) and `invalidPagination` (the pagination helper rejecting its
input). -/
inductive DbError where
  | notFound
  | invalidPagination
  deriving DecidableEq, Repr

/-- One row of the joined source built by `all_joins`: the person row, its
(inner-joined) aggregate row, and the (left-joined, hence optional)
local-user row. -/
structure JoinedRow where
  person : Person
  counts : PersonAggregates
  local_user : Option LocalUser
  deriving DecidableEq, Repr

/-- The rows the join produces for one person: inner join against
`person_aggregates` on `person_id = id` (no aggregate row means no output
row), left join against `local_user` (no local-user row yields `none`). -/
def person_rows (db : Db) (p : Person) : List JoinedRow :=
  (db.person_aggregates.filter (fun a => a.person_id == p.id)).flatMap (fun a =>
    match db.local_users.filter (fun lu => lu.person_id == p.id) with
    | [] => [⟨p, a, none⟩]
    | lu :: lus => (lu :: lus).map (fun l => ⟨p, a, some l⟩))

/-- `all_joins`: the shared join shape.  Inner join of `person` with
`person_aggregates`, left join with `local_user`, in table order. -/
def all_joins (db : Db) : List JoinedRow :=
  db.persons.flatMap (person_rows db)

/-- The projection `select((person::all_columns, person_aggregates::all_columns))`:
the local-user columns are not part of the view. -/
def toView (r : JoinedRow) : PersonView :=
  ⟨r.person, r.counts⟩

/-- Modelled from the spec: the platform-wide generic sort directive
enumeration (`SortType`), an external collaborator of this module.  The
variants beyond the seven the translator names explicitly stand for the
"anything else" directives. -/
inductive SortType where
  | Active
  | Hot
  | New
  | Old
  | TopDay
  | TopWeek
  | TopMonth
  | TopYear
  | TopAll
  | MostComments
  | NewComments
  | TopHour
  | TopSixHour
  | TopTwelveHour
  | TopThreeMonths
  | TopSixMonths
  | TopNineMonths
  | Controversial
  | Scaled
  deriving DecidableEq, Repr

/-- The person sort types.  Converted automatically from `SortType`. -/
inductive PersonSortType where
  | New
  | Old
  | MostComments
  | CommentScore
  | PostScore
  | PostCount
  deriving DecidableEq, Repr

/-- The sort translator `post_to_person_sort_type`. -/
def post_to_person_sort_type (sort : SortType) : PersonSortType :=
  match sort with
  | .Active | .Hot | .Controversial => .CommentScore
  | .New | .NewComments => .New
  | .MostComments => .MostComments
  | .Old => .Old
  | _ => .CommentScore

/-- A token of a SQL `LIKE` pattern: a literal character, the
single-character wildcard `_`, or the any-sequence wildcard `%`. -/
inductive Tok where
  | lit (c : Char)
  | one
  | many
  deriving DecidableEq, Repr

/-- Lex a `LIKE` pattern: a backslash escapes the following character into
a literal, `%` and `_` are wildcards, everything else is literal. -/
def lexPattern : List Char → List Tok
  | [] => []
  | c :: rest =>
    if c = '\\' then
      match rest with
      | [] => []
      | d :: rest2 => .lit d :: lexPattern rest2
    else if c = '%' then .many :: lexPattern rest
    else if c = '_' then .one :: lexPattern rest
    else .lit c :: lexPattern rest

/-- Match a lexed `LIKE` pattern against a character list, comparing
literal characters case-insensitively (the semantics of `ILIKE`).  The
any-sequence wildcard consumes an arbitrary prefix, so it matches exactly
when the rest of the pattern matches some suffix. -/
def toksMatch : List Tok → List Char → Bool
  | [], s => s.isEmpty
  | .lit c :: p, s =>
    match s with
    | [] => false
    | d :: s2 => (c.toLower == d.toLower) && toksMatch p s2
  | .one :: p, s =>
    match s with
    | [] => false
    | _ :: s2 => toksMatch p s2
  | .many :: p, s => s.tails.any (toksMatch p)

/-- The SQL `ILIKE` operator: case-insensitive pattern match of a string
against a `LIKE` pattern. -/
def ilike (s : String) (pat : String) : Bool :=
  toksMatch (lexPattern pat.data) s.data

/-- Escape the `LIKE` special characters (backslash, `%`, `_`) of a raw
string so each matches only literally. -/
def escapeLike : List Char → List Char
  | [] => []
  | c :: rest =>
    if c = '\\' ∨ c = '%' ∨ c = '_' then '\\' :: c :: escapeLike rest
    else c :: escapeLike rest

/-- Modelled from the spec: the fuzzy-search helper (`fuzzy_search`, an
external collaborator) escapes any pattern-special characters of the raw
term and wraps it in wildcard tokens. -/
def fuzzy_search (t : String) : String :=
  ⟨'%' :: (escapeLike t.data ++ ['%'])⟩

/-- Modelled from the spec: the pagination helper (`limit_and_offset`, an
external collaborator) normalizes an optional (page, limit) pair with a
default page size of 10 and a maximum page size of 50, rejects a page
below 1 or a limit out of range, and returns `(limit, limit * (page - 1))`. -/
def limit_and_offset (page : Option Int) (limit : Option Int) :
    Except DbError (Int × Int) :=
  let p := page.getD 1
  let l := limit.getD 10
  if p < 1 then .error .invalidPagination
  else if l < 1 ∨ l > 50 then .error .invalidPagination
  else .ok (l, l * (p - 1))

/-- The caller-supplied request descriptor for the Query list mode. -/
structure PersonQuery where
  sort : Option SortType
  search_term : Option String
  page : Option Int
  limit : Option Int
  deriving Repr

/-- The three list modes. -/
inductive ListMode where
  | Admins
  | Banned
  | Query (options : PersonQuery)

/-- The Admins filter: `local_user::admin.eq(true)` on the left-joined
local-user row (a missing row compares as SQL `NULL`, hence is excluded). -/
def adminFilter (r : JoinedRow) : Bool :=
  match r.local_user with
  | some lu => lu.admin
  | none => false

/-- The Banned filter: `banned = true AND (ban_expires IS NULL OR
ban_expires > now())`, evaluated at the call-time clock value `now`. -/
def bannedFilter (now : Int) (r : JoinedRow) : Bool :=
  r.person.banned &&
    (match r.person.ban_expires with
     | none => true
     | some e => decide (now < e))

/-- The comparator each person sort key orders by, as a boolean
less-or-equal relation on joined rows. -/
def personSortLe (s : PersonSortType) (a b : JoinedRow) : Bool :=
  match s with
  | .New => decide (b.person.published ≤ a.person.published)
  | .Old => decide (a.person.published ≤ b.person.published)
  | .MostComments => decide (b.counts.comment_count ≤ a.counts.comment_count)
  | .CommentScore => decide (b.counts.comment_score ≤ a.counts.comment_score)
  | .PostScore => decide (b.counts.post_score ≤ a.counts.post_score)
  | .PostCount => decide (b.counts.post_count ≤ a.counts.post_count)

/-- Insert an element into a list in front of the first element it is
`le`-below: the inductive step of insertion sort. -/
def insertLe {α : Type} (le : α → α → Bool) (x : α) : List α → List α
  | [] => [x]
  | y :: ys => if le x y then x :: y :: ys else y :: insertLe le x ys

/-- Insertion sort by a boolean relation: the model of SQL `ORDER BY`
(any order consistent with the key: SQL promises no stability). -/
def sortByLe {α : Type} (le : α → α → Bool) : List α → List α
  | [] => []
  | x :: xs => insertLe le x (sortByLe le xs)

/-- The search predicate of the Query mode: `name ILIKE fuzzy(t)` OR
`display_name ILIKE fuzzy(t)` (a `NULL` display name never matches). -/
def searchFilter (t : String) (r : JoinedRow) : Bool :=
  ilike r.person.name (fuzzy_search t) ||
    (match r.person.display_name with
     | some dn => ilike dn (fuzzy_search t)
     | none => false)

/-- The filter stage of the Query mode: the joined rows, restricted by the
search predicate when a search term is present.  No filter on the
`deleted` or `banned` flags is applied. -/
def queryFiltered (db : Db) (q : PersonQuery) : List JoinedRow :=
  match q.search_term with
  | some t => (all_joins db).filter (searchFilter t)
  | none => all_joins db

/-- The effective person sort key of a query: the supplied directive sent
through the translator, defaulting to `CommentScore`. -/
def effectiveSort (q : PersonQuery) : PersonSortType :=
  (q.sort.map post_to_person_sort_type).getD .CommentScore

/-- The ordering stage of the Query mode: sort the filtered rows by the
effective sort key. -/
def querySorted (db : Db) (q : PersonQuery) : List JoinedRow :=
  sortByLe (personSortLe (effectiveSort q)) (queryFiltered db q)

/-- The Query list mode: filter, sort, then normalize pagination and apply
it as offset+limit; a pagination failure propagates unchanged. -/
def listQuery (db : Db) (q : PersonQuery) : Except DbError (List PersonView) :=
  match limit_and_offset q.page q.limit with
  | .error e => .error e
  | .ok (l, off) =>
    .ok ((((querySorted db q).drop off.toNat).take l.toNat).map toView)

/-- The Admins list mode: admin flag true, not deleted, ordered ascending
by `published`; no pagination. -/
def listAdmins (db : Db) : List PersonView :=
  (sortByLe (fun a b => decide (a.person.published ≤ b.person.published))
    (((all_joins db).filter adminFilter).filter
      (fun r => r.person.deleted == false))).map toView

/-- The Banned list mode: currently banned, not deleted, in storage order;
no pagination. -/
def listBanned (db : Db) (now : Int) : List PersonView :=
  (((all_joins db).filter (bannedFilter now)).filter
      (fun r => r.person.deleted == false)).map toView

/-- The list query function: dispatch on the mode. -/
def listFn (db : Db) (now : Int) : ListMode → Except DbError (List PersonView)
  | .Admins => .ok (listAdmins db)
  | .Banned => .ok (listBanned db now)
  | .Query options => listQuery db options

/-- `PersonView::read`: the joined source restricted to the given id,
first row or `NotFound`. -/
def PersonView.read (db : Db) (person_id : Nat) : Except DbError PersonView :=
  match (all_joins db).filter (fun r => r.person.id == person_id) with
  | [] => .error .notFound
  | r :: _ => .ok (toView r)

/-- `PersonView::is_admin`: inner join of `person` with `local_user` only,
filtered by id, projecting the admin flag; first row or `NotFound`. -/
def PersonView.is_admin (db : Db) (person_id : Nat) : Except DbError Bool :=
  match ((db.persons.filter (fun p => p.id == person_id)).flatMap (fun p =>
      (db.local_users.filter (fun lu => lu.person_id == p.id)).map
        (fun lu => lu.admin))) with
  | [] => .error .notFound
  | b :: _ => .ok b

/-- `PersonView::admins`. -/
def PersonView.admins (db : Db) (now : Int) : Except DbError (List PersonView) :=
  listFn db now .Admins

/-- `PersonView::banned`. -/
def PersonView.banned (db : Db) (now : Int) : Except DbError (List PersonView) :=
  listFn db now .Banned

/-- `PersonQuery::list`. -/
def PersonQuery.list (q : PersonQuery) (db : Db) (now : Int) :
    Except DbError (List PersonView) :=
  listFn db now (.Query q)

/-! ## Concrete example rows (used to instantiate the theorems) -/

/-- Example person: matches the search term "a", but is both soft-deleted
and banned. -/
def exP : Person := ⟨1, "alice", none, true, 0, none, true⟩

/-- Example aggregate row for `exP`. -/
def exA : PersonAggregates := ⟨1, 0, 0, 0, 0⟩

/-- Example database: one deleted-and-banned person with an aggregate row
and no local-user row. -/
def exDb : Db := ⟨[exP], [exA], []⟩

/-- Example query: search for "a", no sort, no pagination. -/
def exQ : PersonQuery := ⟨none, some "a", none, none⟩

/-- Example soft-deleted person that still has a local-user row. -/
def exP2 : Person := ⟨2, "bob", none, false, 1, none, true⟩

/-- Example local-user row for `exP2`, with the admin flag set. -/
def exLu : LocalUser := ⟨2, true⟩

/-- Example database for the `is_admin` claims. -/
def exDb2 : Db := ⟨[exP2], [⟨2, 0, 0, 0, 0⟩], [exLu]⟩

/-! ## Insertion sort lemmas -/

theorem perm_insertLe {α : Type} (le : α → α → Bool) (x : α) (l : List α) :
    (insertLe le x l).Perm (x :: l) := by
  induction l with
  | nil => simp [insertLe]
  | cons y ys ih =>
    rw [insertLe]
    split
    · exact List.Perm.refl _
    · exact (List.Perm.cons y ih).trans (List.Perm.swap x y ys)

theorem perm_sortByLe {α : Type} (le : α → α → Bool) (l : List α) :
    (sortByLe le l).Perm l := by
  induction l with
  | nil => simp [sortByLe]
  | cons x xs ih =>
    exact (perm_insertLe le x (sortByLe le xs)).trans (List.Perm.cons x ih)

theorem mem_insertLe {α : Type} {le : α → α → Bool} {x y : α} {l : List α} :
    y ∈ insertLe le x l ↔ y = x ∨ y ∈ l := by
  rw [(perm_insertLe le x l).mem_iff, List.mem_cons]

theorem pairwise_insertLe {α : Type} {le : α → α → Bool}
    (htr : ∀ a b c, le a b = true → le b c = true → le a c = true)
    (hto : ∀ a b, le a b = true ∨ le b a = true)
    {x : α} {l : List α} (h : l.Pairwise (fun a b => le a b = true)) :
    (insertLe le x l).Pairwise (fun a b => le a b = true) := by
  induction l with
  | nil => simp [insertLe]
  | cons y ys ih =>
    rw [List.pairwise_cons] at h
    rw [insertLe]
    split
    · rename_i hxy
      refine List.Pairwise.cons ?_ (List.Pairwise.cons h.1 h.2)
      intro z hz
      rcases List.mem_cons.mp hz with rfl | hz
      · exact hxy
      · exact htr x y z hxy (h.1 z hz)
    · rename_i hxy
      have hyx : le y x = true := by
        rcases hto x y with h1 | h1
        · exact absurd h1 hxy
        · exact h1
      refine List.Pairwise.cons ?_ (ih h.2)
      intro z hz
      rcases mem_insertLe.mp hz with rfl | hz
      · exact hyx
      · exact h.1 z hz

theorem pairwise_sortByLe {α : Type} {le : α → α → Bool}
    (htr : ∀ a b c, le a b = true → le b c = true → le a c = true)
    (hto : ∀ a b, le a b = true ∨ le b a = true)
    (l : List α) :
    (sortByLe le l).Pairwise (fun a b => le a b = true) := by
  induction l with
  | nil => simp [sortByLe]
  | cons x xs ih => exact pairwise_insertLe htr hto ih

/-! ## Filter predicate characterizations -/

theorem bannedFilter_iff (now : Int) (r : JoinedRow) :
    bannedFilter now r = true ↔
      r.person.banned = true ∧
        (r.person.ban_expires = none ∨
          ∃ e, r.person.ban_expires = some e ∧ now < e) := by
  cases h : r.person.ban_expires <;> simp [bannedFilter, h]

theorem adminFilter_iff (r : JoinedRow) :
    adminFilter r = true ↔ ∃ lu, r.local_user = some lu ∧ lu.admin = true := by
  cases h : r.local_user <;> simp [adminFilter, h]

/-! ## Claim theorems: the Banned and Admins modes -/

/-- C1: for every database state and call-time clock value, `banned()`
returns (without failing and without pagination) exactly the views of the
joined rows whose person is not deleted, is banned, and whose ban expiry
is null or strictly later than the clock; a banned person with a past
expiry is excluded. -/
theorem banned_exact (db : Db) (now : Int) :
    PersonView.banned db now = .ok (listBanned db now) ∧
      ∀ v : PersonView, v ∈ listBanned db now ↔
        ∃ r ∈ all_joins db, v = toView r ∧ r.person.deleted = false ∧
          r.person.banned = true ∧
          (r.person.ban_expires = none ∨
            ∃ e, r.person.ban_expires = some e ∧ now < e) := by
  refine ⟨rfl, fun v => ?_⟩
  rw [listBanned, List.mem_map]
  constructor
  · rintro ⟨r, hr, rfl⟩
    rw [List.mem_filter, List.mem_filter] at hr
    obtain ⟨⟨hj, hb⟩, hd⟩ := hr
    obtain ⟨hb1, hb2⟩ := (bannedFilter_iff now r).mp hb
    exact ⟨r, hj, rfl, by simpa using hd, hb1, hb2⟩
  · rintro ⟨r, hj, rfl, hd, hb1, hb2⟩
    refine ⟨r, ?_, rfl⟩
    rw [List.mem_filter, List.mem_filter]
    exact ⟨⟨hj, (bannedFilter_iff now r).mpr ⟨hb1, hb2⟩⟩, by simp [hd]⟩

/-- C2: for every database state, `admins()` returns (without failing and
without pagination) exactly the views of the joined rows whose person is
not deleted and whose left-joined local-user row has the admin flag set,
ordered ascending by the person's creation timestamp. -/
theorem admins_exact (db : Db) (now : Int) :
    PersonView.admins db now = .ok (listAdmins db) ∧
      (∀ v : PersonView, v ∈ listAdmins db ↔
        ∃ r ∈ all_joins db, v = toView r ∧ r.person.deleted = false ∧
          ∃ lu, r.local_user = some lu ∧ lu.admin = true) ∧
      (listAdmins db).Pairwise
        (fun u v => u.person.published ≤ v.person.published) := by
  refine ⟨rfl, fun v => ?_, ?_⟩
  · rw [listAdmins, List.mem_map]
    constructor
    · rintro ⟨r, hr, rfl⟩
      rw [(perm_sortByLe _ _).mem_iff, List.mem_filter, List.mem_filter] at hr
      obtain ⟨⟨hj, ha⟩, hd⟩ := hr
      exact ⟨r, hj, rfl, by simpa using hd, (adminFilter_iff r).mp ha⟩
    · rintro ⟨r, hj, rfl, hd, hlu⟩
      refine ⟨r, ?_, rfl⟩
      rw [(perm_sortByLe _ _).mem_iff, List.mem_filter, List.mem_filter]
      exact ⟨⟨hj, (adminFilter_iff r).mpr hlu⟩, by simp [hd]⟩
  · rw [listAdmins, List.pairwise_map]
    refine (pairwise_sortByLe ?_ ?_ _).imp ?_
    · intro a b c hab hbc
      simp only [decide_eq_true_eq] at *
      omega
    · intro a b
      simp only [decide_eq_true_eq]
      omega
    · intro a b h
      simpa using h

/-- The only row predicate the Query mode applies: the search condition
when a term is present, nothing otherwise — in particular nothing about
the `deleted` or `banned` flags. -/
def searchOk (q : PersonQuery) (r : JoinedRow) : Bool :=
  match q.search_term with
  | some t => searchFilter t r
  | none => true

/-- C10: the Query mode filter keeps a joined row exactly when it passes
the search condition — the `deleted` and `banned` flags are not consulted;
concretely, a person that is both soft-deleted and banned is returned by
`PersonQuery::list` while `admins()` and `banned()` (which filter
`deleted`) return nothing for the same database. -/
theorem query_ignores_deleted_banned :
    (∀ (db : Db) (q : PersonQuery) (r : JoinedRow),
        r ∈ queryFiltered db q ↔ r ∈ all_joins db ∧ searchOk q r = true) ∧
      exP.deleted = true ∧ exP.banned = true ∧
      PersonQuery.list exQ exDb 5 = .ok [⟨exP, exA⟩] ∧
      listAdmins exDb = [] ∧ listBanned exDb 5 = [] := by
  refine ⟨?_, rfl, rfl, rfl, rfl, rfl⟩
  intro db q r
  cases hq : q.search_term with
  | none => simp [queryFiltered, searchOk, hq]
  | some t => simp [queryFiltered, searchOk, hq, List.mem_filter]

/-! ## Claim theorems: sort translation, ordering, pagination -/

/-- The sort translator's mapping table as the specification states it:
the three activity directives go to `CommentScore`, the two recency
directives to `New`, `MostComments` and `Old` to themselves, and every
other directive to the `CommentScore` fallback. -/
def sortTranslatorSpec (s : SortType) : PersonSortType :=
  if s = .Active ∨ s = .Hot ∨ s = .Controversial then .CommentScore
  else if s = .New ∨ s = .NewComments then .New
  else if s = .MostComments then .MostComments
  else if s = .Old then .Old
  else .CommentScore

/-- C4: the sort translator is a total function agreeing with the
specification's mapping table on every directive; in particular every
directive outside the seven named ones maps to `CommentScore`. -/
theorem sort_translator_table (s : SortType) :
    post_to_person_sort_type s = sortTranslatorSpec s ∧
      ((s ≠ .Active ∧ s ≠ .Hot ∧ s ≠ .Controversial ∧ s ≠ .New ∧
          s ≠ .NewComments ∧ s ≠ .MostComments ∧ s ≠ .Old) →
        post_to_person_sort_type s = .CommentScore) := by
  cases s <;> exact ⟨rfl, by decide⟩

/-- Witness for C4 at the concrete directive `TopAll`. -/
theorem sort_translator_table_witness :
    post_to_person_sort_type .TopAll = .CommentScore :=
  (sort_translator_table .TopAll).2 (by decide)

/-- The ordering the specification assigns to each person sort key, as a
relation on joined rows: `New` is creation descending, `Old` creation
ascending, and the four counter keys descending on their counter. -/
def sortKeyRel (k : PersonSortType) (a b : JoinedRow) : Prop :=
  match k with
  | .New => b.person.published ≤ a.person.published
  | .Old => a.person.published ≤ b.person.published
  | .MostComments => b.counts.comment_count ≤ a.counts.comment_count
  | .CommentScore => b.counts.comment_score ≤ a.counts.comment_score
  | .PostScore => b.counts.post_score ≤ a.counts.post_score
  | .PostCount => b.counts.post_count ≤ a.counts.post_count

theorem personSortLe_trans (k : PersonSortType) :
    ∀ a b c, personSortLe k a b = true → personSortLe k b c = true →
      personSortLe k a c = true := by
  intro a b c hab hbc
  cases k <;> simp only [personSortLe, decide_eq_true_eq] at * <;> omega

theorem personSortLe_total (k : PersonSortType) :
    ∀ a b, personSortLe k a b = true ∨ personSortLe k b a = true := by
  intro a b
  cases k <;> simp only [personSortLe, decide_eq_true_eq] <;> omega

/-- C5: in the Query mode the rows are a permutation of the filtered rows,
ordered by the effective sort key exactly as the specification's table
says (`New` created desc, `Old` created asc, counter keys desc), where the
effective key is the translated directive, defaulting to `CommentScore`
when none is supplied. -/
theorem query_sort_applied (db : Db) (q : PersonQuery) :
    (querySorted db q).Perm (queryFiltered db q) ∧
      effectiveSort q = (q.sort.map post_to_person_sort_type).getD .CommentScore ∧
      (q.sort = none → effectiveSort q = .CommentScore) ∧
      (querySorted db q).Pairwise (sortKeyRel (effectiveSort q)) := by
  refine ⟨perm_sortByLe _ _, rfl, fun hn => by simp [effectiveSort, hn], ?_⟩
  refine (pairwise_sortByLe (personSortLe_trans _) (personSortLe_total _) _).imp ?_
  intro a b h
  cases heff : effectiveSort q <;>
    rw [heff] at h <;>
    simpa only [personSortLe, sortKeyRel, decide_eq_true_eq] using h

/-- C7: the Query mode normalizes (page, limit) through the pagination
helper; a rejection propagates unchanged as `invalidPagination` with no
result set, and an accepted pair is applied as offset+limit onto the
filtered and sorted rows, so page 2 with limit 10 yields rows 11–20. -/
theorem query_pagination (db : Db) (now : Int) (q : PersonQuery)
    (l off : Int) :
    (∀ e, limit_and_offset q.page q.limit = .error e →
        PersonQuery.list q db now = .error e) ∧
      (limit_and_offset q.page q.limit = .ok (l, off) →
        PersonQuery.list q db now =
          .ok ((((querySorted db q).drop off.toNat).take l.toNat).map toView)) ∧
      (q.page = some 2 → q.limit = some 10 →
        PersonQuery.list q db now =
          .ok ((((querySorted db q).drop 10).take 10).map toView)) := by
  refine ⟨?_, ?_, ?_⟩
  · intro e he
    rw [PersonQuery.list, listFn, listQuery, he]
  · intro hok
    rw [PersonQuery.list, listFn, listQuery, hok]
  · intro hp hl
    rw [PersonQuery.list, listFn, listQuery, hp, hl]
    rfl

/-- Witness for C7: page 2 with limit 10 on the example database. -/
theorem query_pagination_witness :
    PersonQuery.list ⟨none, none, some 2, some 10⟩ exDb 0 =
      .ok ((((querySorted exDb ⟨none, none, some 2, some 10⟩).drop 10).take 10).map
        toView) :=
  (query_pagination exDb 0 ⟨none, none, some 2, some 10⟩ 10 10).2.2 rfl rfl

/-! ## Key-uniqueness lemmas for single-row lookups -/

theorem filter_key_single {α β : Type} [DecidableEq β] {f : α → β} {l : List α}
    (h : (l.map f).Nodup) {a : α} (ha : a ∈ l) {k : β} (hk : f a = k) :
    l.filter (fun x => f x == k) = [a] := by
  induction l with
  | nil => cases ha
  | cons b l ih =>
    rw [List.map_cons, List.nodup_cons] at h
    rcases List.mem_cons.mp ha with rfl | ha2
    · have hnil : l.filter (fun x => f x == k) = [] := by
        rw [List.filter_eq_nil_iff]
        intro x hx hfx
        simp only [beq_iff_eq] at hfx
        have hmem : f x ∈ List.map f l := List.mem_map_of_mem f hx
        rw [hfx, ← hk] at hmem
        exact h.1 hmem
      rw [List.filter_cons, if_pos (by simp [hk]), hnil]
    · have hne : ¬((f b == k) = true) := by
        simp only [beq_iff_eq]
        intro hbk
        have hmem : f a ∈ List.map f l := List.mem_map_of_mem f ha2
        rw [hk, ← hbk] at hmem
        exact h.1 hmem
      rw [List.filter_cons, if_neg hne]
      exact ih h.2 ha2

theorem person_rows_person {db : Db} {p : Person} {r : JoinedRow}
    (h : r ∈ person_rows db p) : r.person = p := by
  rw [person_rows, List.mem_flatMap] at h
  obtain ⟨a, _, hr⟩ := h
  revert hr
  cases db.local_users.filter (fun lu => lu.person_id == p.id) with
  | nil =>
    intro hr
    rw [List.mem_singleton] at hr
    rw [hr]
  | cons lu lus =>
    intro hr
    rw [List.mem_map] at hr
    obtain ⟨l, _, hl⟩ := hr
    rw [← hl]

theorem all_joins_person {db : Db} {r : JoinedRow} (h : r ∈ all_joins db) :
    r.person ∈ db.persons := by
  rw [all_joins, List.mem_flatMap] at h
  obtain ⟨p, hp, hr⟩ := h
  rw [person_rows_person hr]
  exact hp

theorem filter_all_joins (db : Db) (pid : Nat)
    (hp : (db.persons.map Person.id).Nodup) {p : Person}
    (hmem : p ∈ db.persons) (hid : p.id = pid) :
    (all_joins db).filter (fun r => r.person.id == pid) = person_rows db p := by
  rw [all_joins]
  have hgen : ∀ L : List Person, (L.map Person.id).Nodup → p ∈ L →
      (L.flatMap (person_rows db)).filter (fun r => r.person.id == pid) =
        person_rows db p := by
    intro L
    induction L with
    | nil => intro _ h; cases h
    | cons q L ih =>
      intro hnd hm
      rw [List.map_cons, List.nodup_cons] at hnd
      rw [List.flatMap_cons, List.filter_append]
      rcases List.mem_cons.mp hm with rfl | hm2
      · have h1 : (person_rows db p).filter (fun r => r.person.id == pid) =
            person_rows db p := by
          rw [List.filter_eq_self]
          intro r hr
          simp only [beq_iff_eq, person_rows_person hr, hid]
        have h2 : (L.flatMap (person_rows db)).filter
            (fun r => r.person.id == pid) = [] := by
          rw [List.filter_eq_nil_iff]
          intro r hr hrid
          rw [List.mem_flatMap] at hr
          obtain ⟨q2, hq2, hr2⟩ := hr
          simp only [beq_iff_eq, person_rows_person hr2] at hrid
          exact hnd.1
            (by rw [hid, ← hrid]; exact List.mem_map_of_mem Person.id hq2)
        rw [h1, h2, List.append_nil]
      · have h3 : (person_rows db q).filter (fun r => r.person.id == pid) = [] := by
          rw [List.filter_eq_nil_iff]
          intro r hr hrid
          simp only [beq_iff_eq, person_rows_person hr] at hrid
          exact hnd.1
            (by rw [hrid, ← hid]; exact List.mem_map_of_mem Person.id hm2)
        rw [h3, List.nil_append]
        exact ih hnd.2 hm2
  exact hgen db.persons hp hmem

/-! ## Read: found and not-found cases -/

theorem read_found_aux (db : Db) (pid : Nat)
    (hp : (db.persons.map Person.id).Nodup)
    (ha : (db.person_aggregates.map PersonAggregates.person_id).Nodup)
    {p : Person} (hpm : p ∈ db.persons) (hpid : p.id = pid)
    {a : PersonAggregates} (ham : a ∈ db.person_aggregates)
    (haid : a.person_id = pid) :
    PersonView.read db pid = .ok ⟨p, a⟩ := by
  rw [PersonView.read, filter_all_joins db pid hp hpm hpid]
  rw [person_rows, filter_key_single ha ham (by rw [haid, hpid])]
  rw [List.flatMap_cons, List.flatMap_nil, List.append_nil]
  cases db.local_users.filter (fun lu => lu.person_id == p.id) with
  | nil => rfl
  | cons lu lus => rfl

theorem read_nf_no_person (db : Db) (pid : Nat)
    (h : ∀ p ∈ db.persons, p.id ≠ pid) :
    PersonView.read db pid = .error .notFound := by
  have hnil : (all_joins db).filter (fun r => r.person.id == pid) = [] := by
    rw [List.filter_eq_nil_iff]
    intro r hr hrid
    simp only [beq_iff_eq] at hrid
    exact h r.person (all_joins_person hr) hrid
  rw [PersonView.read, hnil]

theorem read_nf_no_agg (db : Db) (pid : Nat)
    (hp : (db.persons.map Person.id).Nodup)
    {p : Person} (hpm : p ∈ db.persons) (hpid : p.id = pid)
    (h : ∀ a ∈ db.person_aggregates, a.person_id ≠ pid) :
    PersonView.read db pid = .error .notFound := by
  rw [PersonView.read, filter_all_joins db pid hp hpm hpid]
  have hnil : db.person_aggregates.filter (fun a => a.person_id == p.id) = [] := by
    rw [List.filter_eq_nil_iff]
    intro a ham haid
    simp only [beq_iff_eq] at haid
    exact h a ham (by rw [haid, hpid])
  rw [person_rows, hnil]
  rfl

/-- C3: when a person row with the identifier and its aggregate row both
exist (under the schema's key uniqueness), `read` returns the view of
their joined data; when the person is absent, or present but without an
aggregate row, `read` fails with `NotFound` (the inner join never
null-pads). -/
theorem read_spec (db : Db) (pid : Nat)
    (hp : (db.persons.map Person.id).Nodup)
    (ha : (db.person_aggregates.map PersonAggregates.person_id).Nodup) :
    (∀ p ∈ db.persons, p.id = pid →
        ∀ a ∈ db.person_aggregates, a.person_id = pid →
          PersonView.read db pid = .ok ⟨p, a⟩) ∧
      ((∀ p ∈ db.persons, p.id ≠ pid) →
        PersonView.read db pid = .error .notFound) ∧
      (∀ p ∈ db.persons, p.id = pid →
        (∀ a ∈ db.person_aggregates, a.person_id ≠ pid) →
          PersonView.read db pid = .error .notFound) :=
  ⟨fun _ hpm hpid _ ham haid => read_found_aux db pid hp ha hpm hpid ham haid,
   fun h => read_nf_no_person db pid h,
   fun _ hpm hpid h => read_nf_no_agg db pid hp hpm hpid h⟩

/-- Witness for C3: reading the example person returns its joined view. -/
theorem read_spec_witness : PersonView.read exDb 1 = .ok ⟨exP, exA⟩ :=
  (read_spec exDb 1 (by decide) (by decide)).1 exP (by decide) rfl exA
    (by decide) rfl

/-! ## is_admin: found and not-found cases -/

theorem is_admin_ok_aux (db : Db) (pid : Nat)
    (hp : (db.persons.map Person.id).Nodup)
    {p : Person} (hpm : p ∈ db.persons) (hpid : p.id = pid)
    (hl : (db.local_users.map LocalUser.person_id).Nodup)
    {lu : LocalUser} (hlm : lu ∈ db.local_users) (hlid : lu.person_id = pid) :
    PersonView.is_admin db pid = .ok lu.admin := by
  rw [PersonView.is_admin, filter_key_single hp hpm hpid]
  rw [List.flatMap_cons, List.flatMap_nil, List.append_nil]
  rw [filter_key_single hl hlm (by rw [hlid, hpid])]
  rfl

theorem is_admin_nf_no_person (db : Db) (pid : Nat)
    (h : ∀ p ∈ db.persons, p.id ≠ pid) :
    PersonView.is_admin db pid = .error .notFound := by
  have hnil : db.persons.filter (fun p => p.id == pid) = [] := by
    rw [List.filter_eq_nil_iff]
    intro p hpm hpid
    simp only [beq_iff_eq] at hpid
    exact h p hpm hpid
  rw [PersonView.is_admin, hnil]
  rfl

theorem is_admin_nf_no_local (db : Db) (pid : Nat)
    (hp : (db.persons.map Person.id).Nodup)
    {p : Person} (hpm : p ∈ db.persons) (hpid : p.id = pid)
    (h : ∀ lu ∈ db.local_users, lu.person_id ≠ pid) :
    PersonView.is_admin db pid = .error .notFound := by
  rw [PersonView.is_admin, filter_key_single hp hpm hpid]
  have hnil : db.local_users.filter (fun lu => lu.person_id == p.id) = [] := by
    rw [List.filter_eq_nil_iff]
    intro lu hlm hlid
    simp only [beq_iff_eq] at hlid
    exact h lu hlm (by rw [hlid, hpid])
  rw [List.flatMap_cons, List.flatMap_nil, List.append_nil, hnil]
  rfl

/-- C8: `is_admin` joins the person row with the local-user flags only
(the aggregates table is irrelevant to it), filters by the identifier and
returns the stored admin flag; it fails with `NotFound` when the person
does not exist or has no local-user row. -/
theorem is_admin_spec (db : Db) (pid : Nat)
    (hp : (db.persons.map Person.id).Nodup)
    (hl : (db.local_users.map LocalUser.person_id).Nodup) :
    (∀ aggs : List PersonAggregates,
        PersonView.is_admin ⟨db.persons, aggs, db.local_users⟩ pid =
          PersonView.is_admin db pid) ∧
      (∀ p ∈ db.persons, p.id = pid →
        ∀ lu ∈ db.local_users, lu.person_id = pid →
          PersonView.is_admin db pid = .ok lu.admin) ∧
      ((∀ p ∈ db.persons, p.id ≠ pid) →
        PersonView.is_admin db pid = .error .notFound) ∧
      (∀ p ∈ db.persons, p.id = pid →
        (∀ lu ∈ db.local_users, lu.person_id ≠ pid) →
          PersonView.is_admin db pid = .error .notFound) :=
  ⟨fun _ => rfl,
   fun _ hpm hpid _ hlm hlid => is_admin_ok_aux db pid hp hpm hpid hl hlm hlid,
   fun h => is_admin_nf_no_person db pid h,
   fun _ hpm hpid h => is_admin_nf_no_local db pid hp hpm hpid h⟩

/-- Witness for C8: the stored admin flag of the example local user. -/
theorem is_admin_spec_witness : PersonView.is_admin exDb2 2 = .ok true :=
  (is_admin_spec exDb2 2 (by decide) (by decide)).2.1 exP2 (by decide) rfl exLu
    (by decide) rfl

/-- C9: `is_admin` applies no filter on the `deleted` flag — for a
soft-deleted person that still has a local-user row it returns the stored
admin flag rather than failing or returning false — while the same person
never appears in the `admins()` listing. -/
theorem is_admin_ignores_deleted (db : Db) (pid : Nat)
    (hp : (db.persons.map Person.id).Nodup)
    (hl : (db.local_users.map LocalUser.person_id).Nodup)
    (p : Person) (hpm : p ∈ db.persons) (hpid : p.id = pid)
    (hdel : p.deleted = true)
    (lu : LocalUser) (hlm : lu ∈ db.local_users) (hlid : lu.person_id = pid) :
    PersonView.is_admin db pid = .ok lu.admin ∧
      ∀ v ∈ listAdmins db, v.person ≠ p := by
  refine ⟨is_admin_ok_aux db pid hp hpm hpid hl hlm hlid, ?_⟩
  intro v hv hvp
  rw [listAdmins, List.mem_map] at hv
  obtain ⟨r, hr, rfl⟩ := hv
  rw [(perm_sortByLe _ _).mem_iff, List.mem_filter] at hr
  have hdf : r.person.deleted = false := by simpa using hr.2
  have hvp2 : r.person = p := hvp
  rw [hvp2, hdel] at hdf
  cases hdf

/-- Witness for C9: the soft-deleted example person still reports its
admin flag. -/
theorem is_admin_ignores_deleted_witness :
    PersonView.is_admin exDb2 2 = .ok true :=
  (is_admin_ignores_deleted exDb2 2 (by decide) (by decide) exP2 (by decide)
    rfl rfl exLu (by decide) rfl).1

/-! ## LIKE-pattern theory: the fuzzy search matches exactly substrings -/

theorem lexPattern_cons (c : Char) (l : List Char) :
    lexPattern (c :: l) =
      if c = '\\' then
        match l with
        | [] => []
        | d :: rest2 => Tok.lit d :: lexPattern rest2
      else if c = '%' then Tok.many :: lexPattern l
      else if c = '_' then Tok.one :: lexPattern l
      else Tok.lit c :: lexPattern l := by
  rw [lexPattern.eq_def]

theorem escapeLike_cons (c : Char) (l : List Char) :
    escapeLike (c :: l) =
      if c = '\\' ∨ c = '%' ∨ c = '_' then '\\' :: c :: escapeLike l
      else c :: escapeLike l := by
  rw [escapeLike.eq_def]

theorem lexPattern_escape (t r : List Char) :
    lexPattern (escapeLike t ++ r) = t.map Tok.lit ++ lexPattern r := by
  induction t with
  | nil => simp [escapeLike]
  | cons c t ih =>
    rw [escapeLike_cons]
    by_cases h : c = '\\' ∨ c = '%' ∨ c = '_'
    · rw [if_pos h, List.cons_append, List.cons_append, lexPattern_cons,
        if_pos rfl]
      simp [ih]
    · push_neg at h
      rw [if_neg (not_or.mpr ⟨h.1, not_or.mpr ⟨h.2.1, h.2.2⟩⟩),
        List.cons_append, lexPattern_cons, if_neg h.1, if_neg h.2.1,
        if_neg h.2.2, ih]
      simp

theorem toksMatch_lit_nil (c : Char) (p : List Tok) :
    toksMatch (Tok.lit c :: p) [] = false := rfl

theorem toksMatch_lit_cons (c : Char) (p : List Tok) (d : Char) (s : List Char) :
    toksMatch (Tok.lit c :: p) (d :: s) =
      ((c.toLower == d.toLower) && toksMatch p s) := rfl

theorem toksMatch_many_eq (p : List Tok) (s : List Char) :
    toksMatch (Tok.many :: p) s = s.tails.any (toksMatch p) := rfl

theorem toksMatch_many_iff (p : List Tok) (s : List Char) :
    toksMatch (Tok.many :: p) s = true ↔
      ∃ s1 s2, s = s1 ++ s2 ∧ toksMatch p s2 = true := by
  rw [toksMatch_many_eq, List.any_eq_true]
  constructor
  · rintro ⟨t, ht, h⟩
    rw [List.mem_tails] at ht
    obtain ⟨s1, rfl⟩ := ht
    exact ⟨s1, t, rfl, h⟩
  · rintro ⟨s1, s2, rfl, h⟩
    exact ⟨s2, (List.mem_tails _ _).mpr ⟨s1, rfl⟩, h⟩

theorem toksMatch_many_nil (s : List Char) : toksMatch [Tok.many] s = true := by
  rw [toksMatch_many_iff]
  exact ⟨s, [], by simp, rfl⟩

theorem toksMatch_lits_iff (t : List Char) (p : List Tok) (s : List Char) :
    toksMatch (t.map Tok.lit ++ p) s = true ↔
      ∃ s1 s2, s = s1 ++ s2 ∧ s1.map Char.toLower = t.map Char.toLower ∧
        toksMatch p s2 = true := by
  induction t generalizing s with
  | nil =>
    simp only [List.map_nil, List.nil_append]
    constructor
    · intro h
      exact ⟨[], s, rfl, rfl, h⟩
    · rintro ⟨s1, s2, rfl, h1, h2⟩
      cases s1 with
      | nil => simpa using h2
      | cons x s1 => simp at h1
  | cons c t ih =>
    cases s with
    | nil =>
      rw [List.map_cons, List.cons_append, toksMatch_lit_nil]
      constructor
      · intro h
        exact absurd h (by simp)
      · rintro ⟨s1, s2, hs, h1, h2⟩
        rcases List.append_eq_nil.mp hs.symm with ⟨rfl, rfl⟩
        simp at h1
    | cons d s =>
      rw [List.map_cons, List.cons_append, toksMatch_lit_cons,
        Bool.and_eq_true, ih]
      constructor
      · rintro ⟨hcd, s1, s2, rfl, h1, h2⟩
        refine ⟨d :: s1, s2, rfl, ?_, h2⟩
        simp only [beq_iff_eq] at hcd
        rw [List.map_cons, List.map_cons, h1, hcd]
      · rintro ⟨s1, s2, hs, h1, h2⟩
        cases s1 with
        | nil => simp at h1
        | cons x s1 =>
          rw [List.map_cons, List.map_cons] at h1
          injection h1 with h1a h1b
          rw [List.cons_append] at hs
          injection hs with hsa hsb
          subst hsa
          exact ⟨by simp [h1a], s1, s2, hsb, h1b, h2⟩

theorem toksMatch_fuzzy_iff (sd td : List Char) :
    toksMatch (Tok.many :: (td.map Tok.lit ++ [Tok.many])) sd = true ↔
      ∃ a b, sd.map Char.toLower = a ++ td.map Char.toLower ++ b := by
  rw [toksMatch_many_iff]
  constructor
  · rintro ⟨s1, s2, rfl, h⟩
    rw [toksMatch_lits_iff] at h
    obtain ⟨u, v, rfl, hu, _⟩ := h
    refine ⟨s1.map Char.toLower, v.map Char.toLower, ?_⟩
    rw [List.map_append, List.map_append, hu]
    simp [List.append_assoc]
  · rintro ⟨a, b, hab⟩
    rw [List.append_assoc] at hab
    obtain ⟨l1, l2, rfl, h1, h2⟩ := List.map_eq_append_iff.mp hab
    obtain ⟨u, v, rfl, hu, hv⟩ := List.map_eq_append_iff.mp h2
    refine ⟨l1, u ++ v, rfl, ?_⟩
    rw [toksMatch_lits_iff]
    exact ⟨u, v, rfl, hu, toksMatch_many_nil v⟩

theorem ilike_fuzzy (s t : String) :
    ilike s (fuzzy_search t) = true ↔
      ∃ a b, s.data.map Char.toLower = a ++ t.data.map Char.toLower ++ b := by
  rw [ilike]
  show toksMatch (lexPattern ('%' :: (escapeLike t.data ++ ['%']))) s.data =
      true ↔ _
  rw [lexPattern_cons, if_neg (by decide), if_pos rfl, lexPattern_escape,
    show lexPattern ['%'] = [Tok.many] from rfl]
  exact toksMatch_fuzzy_iff s.data t.data

theorem searchFilter_iff (t : String) (r : JoinedRow) :
    searchFilter t r = true ↔
      ilike r.person.name (fuzzy_search t) = true ∨
        ∃ dn, r.person.display_name = some dn ∧
          ilike dn (fuzzy_search t) = true := by
  cases h : r.person.display_name <;> simp [searchFilter, h]

/-- C6: the fuzzy pattern built from a search term matches a column value
exactly when the lowercased term occurs as a contiguous substring of the
lowercased value (special pattern characters of the term having been
escaped, they match only literally); the Query mode filter keeps exactly
the rows whose name or non-null display name matches the term this way. -/
theorem search_term_spec :
    (∀ s t : String, ilike s (fuzzy_search t) = true ↔
        ∃ a b, s.data.map Char.toLower = a ++ t.data.map Char.toLower ++ b) ∧
      ∀ (db : Db) (q : PersonQuery) (t : String), q.search_term = some t →
        ∀ r : JoinedRow, r ∈ queryFiltered db q ↔
          r ∈ all_joins db ∧
            ((∃ a b, r.person.name.data.map Char.toLower =
                a ++ t.data.map Char.toLower ++ b) ∨
              ∃ dn, r.person.display_name = some dn ∧
                ∃ a b, dn.data.map Char.toLower =
                  a ++ t.data.map Char.toLower ++ b) := by
  refine ⟨ilike_fuzzy, fun db q t hq r => ?_⟩
  simp only [queryFiltered, hq, List.mem_filter, searchFilter_iff, ilike_fuzzy]

/-- Witness for C6: the filter keeps the example row for the term "a". -/
theorem search_term_spec_witness :
    (⟨exP, exA, none⟩ : JoinedRow) ∈ queryFiltered exDb exQ ↔
      (⟨exP, exA, none⟩ : JoinedRow) ∈ all_joins exDb ∧
        ((∃ a b, exP.name.data.map Char.toLower =
            a ++ "a".data.map Char.toLower ++ b) ∨
          ∃ dn, exP.display_name = some dn ∧
            ∃ a b, dn.data.map Char.toLower =
              a ++ "a".data.map Char.toLower ++ b) :=
  search_term_spec.2 exDb exQ "a" rfl ⟨exP, exA, none⟩

/-- Witness for C5: with no sort directive the effective key is the
`CommentScore` default. -/
theorem query_sort_applied_witness : effectiveSort exQ = .CommentScore :=
  (query_sort_applied exDb exQ).2.2.1 rfl
